import Mathlib

/-!
Shallow embedding of `chunker.py` from the `chunker-cli` repository and
verification of its specification claims.

The Python module defines three chunking strategies over a text:

* `TokenBasedChunking.chunk`: encodes the text with a tokenizer, accumulates
  tokens, and flushes the running buffer whenever its length has already
  reached `chunk_size` before the next token is appended.
* `LineBasedChunking.chunk`: splits the text into lines (`str.splitlines`),
  sizes each line by its whitespace-separated word count (`len(line.split())`),
  and flushes the running buffer before appending a line when
  `current_chunk_size + line_size > chunk_size and current_chunk`;
  a flushed chunk's text is the lines joined by a single space.
* `ParagraphBasedChunking.chunk`: the same accumulation over
  `text.split('\n\n')`, joining with `'\n\n'`.

A factory `get_chunking_strategy` selects a strategy by name and raises for an
unknown name or for `token` without an encoder.

Texts are Lean `String`s; Python's character-level operations
(`str.split()` word counting, `str.splitlines`, `str.split('\n\n')`,
`str.join`) are embedded as structural recursions over `List Char`.
Python `int` sizes are `Int` for the caller-supplied `chunk_size` (which may
be negative) and `Nat` for the computed, always non-negative, counts.
-/

/-- Whitespace test used by Python `str.split()` with no argument
(the ASCII whitespace characters; `str.split()` also strips a few rarer
Unicode space characters, which no claim exercises). -/
def isPySpace (c : Char) : Bool :=
  c = ' ' || c = '\t' || c = '\n' || c = '\r' || c = '\x0b' || c = '\x0c'

/-- Line-boundary test used by Python `str.splitlines` (the ASCII line
boundaries; `splitlines` also recognises a few rarer Unicode separators,
which no claim exercises). -/
def isLineBreak (c : Char) : Bool :=
  c = '\n' || c = '\r' || c = '\x0b' || c = '\x0c' ||
  c = '\x1c' || c = '\x1d' || c = '\x1e' || c = '\x85'

/-- Word counter behind Python `len(s.split())`: the number of maximal runs
of non-whitespace characters. The flag records whether the previous
character belonged to a word. -/
def wcAux : List Char → Bool → Nat
  | [], _ => 0
  | c :: rest, inWord =>
    if isPySpace c then wcAux rest false
    else (if inWord then 0 else 1) + wcAux rest true

/-- Python `len(s.split())`: the number of whitespace-separated words. -/
def wordCount (s : String) : Nat :=
  wcAux s.toList false

/-- Python `str.splitlines` over characters: emit the accumulated line at
every line boundary (`\r\n` counting as one boundary), and emit the final
accumulation only when it is non-empty. -/
def splitlinesList : List Char → List Char → List (List Char)
  | [], acc => if acc.isEmpty then [] else [acc.reverse]
  | '\r' :: '\n' :: rest, acc => acc.reverse :: splitlinesList rest []
  | c :: rest, acc =>
    if isLineBreak c then acc.reverse :: splitlinesList rest []
    else splitlinesList rest (c :: acc)

/-- Python `text.splitlines()`. -/
def splitlines (text : String) : List String :=
  (splitlinesList text.toList []).map String.mk

/-- Python `text.split('\n\n')` over characters: split on each
non-overlapping occurrence of two consecutive newlines, scanning left to
right; always at least one (possibly empty) piece. -/
def splitNN : List Char → List Char → List (List Char)
  | [], acc => [acc.reverse]
  | '\n' :: '\n' :: rest, acc => acc.reverse :: splitNN rest []
  | c :: rest, acc => splitNN rest (c :: acc)

/-- Python `text.split('\n\n')`. -/
def splitParagraphs (text : String) : List String :=
  (splitNN text.toList []).map String.mk

/-- Python `sep.join(xs)` over characters. -/
def joinSep (sep : List Char) : List (List Char) → List Char
  | [] => []
  | [x] => x
  | x :: xs => x ++ sep ++ joinSep sep xs

/-- Python `sep.join(xs)` on strings. -/
def joinStr (sep : String) (xs : List String) : String :=
  String.mk (joinSep sep.toList (xs.map String.toList))

/-- Shared accumulation loop of `LineBasedChunking.chunk` and
`ParagraphBasedChunking.chunk`: the units (lines or paragraphs) arrive
paired with their word counts; before appending a unit, when
`current_chunk_size + unit_size > chunk_size and current_chunk` the
accumulated group is flushed with its running size; after the loop a
non-empty accumulation is flushed. -/
def flushChunks (target : Int) : List (String × Nat) → List (String × Nat) → Nat →
    List (List (String × Nat) × Nat)
  | [], cur, curSize => if cur.isEmpty then [] else [(cur, curSize)]
  | u :: rest, cur, curSize =>
    if ((curSize + u.2 : Int) > target ∧ cur ≠ []) then
      (cur, curSize) :: flushChunks target rest [u] u.2
    else
      flushChunks target rest (cur ++ [u]) (curSize + u.2)

/-- Lines of the input paired with their word counts
(`line_size = len(line.split())` in the source). -/
def lineUnits (text : String) : List (String × Nat) :=
  (splitlines text).map (fun l => (l, wordCount l))

/-- Paragraphs of the input paired with their word counts
(`paragraph_size = len(paragraph.split())` in the source). -/
def paragraphUnits (text : String) : List (String × Nat) :=
  (splitParagraphs text).map (fun p => (p, wordCount p))

/-- Groups produced by `LineBasedChunking.chunk` before they are joined
into chunk texts. -/
def LineBasedChunking.chunkGroups (text : String) (chunk_size : Int) :
    List (List (String × Nat) × Nat) :=
  flushChunks chunk_size (lineUnits text) [] 0

/-- `LineBasedChunking.chunk(text, chunk_size)`: each flushed group becomes
`(' '.join(current_chunk), current_chunk_size)`. -/
def LineBasedChunking.chunk (text : String) (chunk_size : Int) : List (String × Nat) :=
  (LineBasedChunking.chunkGroups text chunk_size).map
    (fun g => (joinStr " " (g.1.map Prod.fst), g.2))

/-- Groups produced by `ParagraphBasedChunking.chunk` before they are joined
into chunk texts. -/
def ParagraphBasedChunking.chunkGroups (text : String) (chunk_size : Int) :
    List (List (String × Nat) × Nat) :=
  flushChunks chunk_size (paragraphUnits text) [] 0

/-- `ParagraphBasedChunking.chunk(text, chunk_size)`: each flushed group
becomes `('\n\n'.join(current_chunk), current_chunk_size)`. -/
def ParagraphBasedChunking.chunk (text : String) (chunk_size : Int) : List (String × Nat) :=
  (ParagraphBasedChunking.chunkGroups text chunk_size).map
    (fun g => (joinStr "\n\n" (g.1.map Prod.fst), g.2))

/-- Tokenizer adapter (`tiktoken.Encoding` in the source): an `encode` and a
`decode` between text and token sequences. The development is parametric in
the token type `τ` (integer codes in `tiktoken`). -/
structure Encoding (τ : Type) where
  encode : String → List τ
  decode : List τ → String

/-- Token accumulation loop of `TokenBasedChunking.chunk` at the level of
token lists: at each token, if `current_chunk_size >= chunk_size` the
current buffer (even when empty) is flushed before the token is appended;
after the loop a non-empty buffer is flushed. `current_chunk_size` always
equals the buffer length in the source, so the model keeps only the
buffer. -/
def tokenGroups (target : Int) : List τ → List τ → List (List τ)
  | [], cur => if cur.isEmpty then [] else [cur]
  | t :: rest, cur =>
    if ((cur.length : Int) ≥ target) then
      cur :: tokenGroups target rest [t]
    else
      tokenGroups target rest (cur ++ [t])

/-- `TokenBasedChunking.chunk(text, chunk_size)`: each flushed buffer becomes
`(encoder.decode(current_chunk), len(current_chunk))`. -/
def TokenBasedChunking.chunk (enc : Encoding τ) (text : String) (chunk_size : Int) :
    List (String × Nat) :=
  (tokenGroups chunk_size (enc.encode text) []).map
    (fun c => (enc.decode c, c.length))

/-- Error raised by `get_chunking_strategy` (a Python `ValueError`, named
`ConfigurationError` in the specification's error taxonomy). -/
inductive ConfigurationError where
  | missingEncoder : ConfigurationError
  | unknownStrategy : String → ConfigurationError
deriving DecidableEq, Repr

/-- The closed set of strategies the factory can construct. -/
inductive Strategy (τ : Type) where
  | tokenBased : Encoding τ → Strategy τ
  | lineBased : Strategy τ
  | paragraphBased : Strategy τ

/-- `get_chunking_strategy(strategy_name, encoder)`: `token` requires an
encoder, `line` and `paragraph` need none, any other name is rejected. -/
def get_chunking_strategy (strategy_name : String) (encoder : Option (Encoding τ)) :
    Except ConfigurationError (Strategy τ) :=
  if strategy_name = "token" then
    match encoder with
    | none => .error .missingEncoder
    | some e => .ok (.tokenBased e)
  else if strategy_name = "line" then .ok .lineBased
  else if strategy_name = "paragraph" then .ok .paragraphBased
  else .error (.unknownStrategy strategy_name)

/-- `Chunker.chunk_text(text, chunk_size)` forwards to the held strategy. -/
def Chunker.chunk_text (strategy : Strategy τ) (text : String) (chunk_size : Int) :
    List (String × Nat) :=
  match strategy with
  | .tokenBased enc => TokenBasedChunking.chunk enc text chunk_size
  | .lineBased => LineBasedChunking.chunk text chunk_size
  | .paragraphBased => ParagraphBasedChunking.chunk text chunk_size

/-- Concrete tokenizer used for counterexamples and witnesses: tokens are the
characters themselves, so `encode` and `decode` are mutually inverse. -/
def charEnc : Encoding Char where
  encode := String.toList
  decode := String.mk

/-! ### Lemmas about the token accumulation loop -/

/-- Flattening the flushed token buffers recovers the pending buffer followed
by the remaining tokens: no token is dropped, duplicated, or reordered. -/
theorem tokenGroups_flatten (target : Int) (toks cur : List τ) :
    (tokenGroups target toks cur).flatten = cur ++ toks := by
  induction toks, cur using tokenGroups.induct target with
  | case1 cur h => simp [tokenGroups, h, List.isEmpty_iff.mp h]
  | case2 cur h => simp [tokenGroups, h]
  | case3 t rest cur h ih => simp [tokenGroups, if_pos h, ih]
  | case4 t rest cur h ih => simp [tokenGroups, if_neg h, ih]

/-- Every flushed buffer is short: at most one token, or within the target. -/
theorem tokenGroups_mem_length (target : Int) (toks cur : List τ)
    (hcur : cur.length ≤ 1 ∨ (cur.length : Int) ≤ target) :
    ∀ c ∈ tokenGroups target toks cur, c.length ≤ 1 ∨ (c.length : Int) ≤ target := by
  induction toks, cur using tokenGroups.induct target with
  | case1 cur h => simp [tokenGroups, h]
  | case2 cur h =>
    intro c hc
    simp only [tokenGroups, if_neg h, List.mem_singleton] at hc
    subst hc
    exact hcur
  | case3 t rest cur h ih =>
    intro c hc
    simp only [tokenGroups, if_pos h, List.mem_cons] at hc
    rcases hc with rfl | hc
    · exact hcur
    · exact ih (Or.inl (by simp)) c hc
  | case4 t rest cur h ih =>
    intro c hc
    simp only [tokenGroups, if_neg h] at hc
    refine ih ?_ c hc
    right
    simp only [List.length_append, List.length_singleton]
    push_cast
    omega

/-- The loop returns no chunks exactly when both the tokens and the pending
buffer are empty. -/
theorem tokenGroups_eq_nil_iff (target : Int) (toks cur : List τ) :
    tokenGroups target toks cur = [] ↔ toks = [] ∧ cur = [] := by
  induction toks, cur using tokenGroups.induct target with
  | case1 cur h => simp [tokenGroups, h, List.isEmpty_iff.mp h]
  | case2 cur h =>
    have hcur : cur ≠ [] := fun hc => h (by simp [hc])
    simp [tokenGroups, if_neg h, hcur]
  | case3 t rest cur h ih => simp [tokenGroups, if_pos h]
  | case4 t rest cur h ih => simp [tokenGroups, if_neg h, ih]

/-- With a non-positive target the flush check fires at every token, so after
the first token every token rides alone in its own buffer. -/
theorem tokenGroups_nonpos_singletons (target : Int) (hle : target ≤ 0)
    (toks : List τ) (t : τ) :
    tokenGroups target toks [t] = [t] :: toks.map (fun x => [x]) := by
  induction toks generalizing t with
  | nil => rfl
  | cons u rest ih =>
    have hge : ((([t] : List τ).length : Int) ≥ target) := by
      simp only [List.length_singleton]
      omega
    simp only [tokenGroups, if_pos hge, ih, List.map_cons]

/-- With a non-positive target and at least one token, the result is the
flushed empty buffer followed by one singleton buffer per token. -/
theorem tokenGroups_nonpos (target : Int) (hle : target ≤ 0)
    (toks : List τ) (hne : toks ≠ []) :
    tokenGroups target toks [] = [] :: toks.map (fun x => [x]) := by
  cases toks with
  | nil => exact absurd rfl hne
  | cons t rest =>
    have hge : ((([] : List τ).length : Int) ≥ target) := by
      simp only [List.length_nil, Nat.cast_zero]
      omega
    simp only [tokenGroups, if_pos hge, tokenGroups_nonpos_singletons target hle rest t,
      List.map_cons]

/-! ### Lemmas about the line/paragraph accumulation loop -/

/-- Flattening the flushed groups recovers the pending group followed by the
remaining units: no unit is dropped, duplicated, or reordered. -/
theorem flushChunks_flatten (target : Int) (units cur : List (String × Nat)) (curSize : Nat) :
    ((flushChunks target units cur curSize).map Prod.fst).flatten = cur ++ units := by
  induction units, cur, curSize using flushChunks.induct target with
  | case1 cur curSize h => simp [flushChunks, h, List.isEmpty_iff.mp h]
  | case2 cur curSize h => simp [flushChunks, h]
  | case3 u rest cur curSize h ih => simp [flushChunks, if_pos h, ih]
  | case4 u rest cur curSize h ih => simp [flushChunks, if_neg h, ih]

/-- Every flushed group is non-empty: the flush check requires a non-empty
accumulation and the final flush is guarded by the same test. -/
theorem flushChunks_mem_ne_nil (target : Int) (units cur : List (String × Nat)) (curSize : Nat) :
    ∀ p ∈ flushChunks target units cur curSize, p.1 ≠ [] := by
  induction units, cur, curSize using flushChunks.induct target with
  | case1 cur curSize h => simp [flushChunks, h]
  | case2 cur curSize h =>
    intro p hp
    simp only [flushChunks, if_neg h, List.mem_singleton] at hp
    subst hp
    have hcur : cur ≠ [] := fun hc => h (by simp [hc])
    exact hcur
  | case3 u rest cur curSize h ih =>
    intro p hp
    simp only [flushChunks, if_pos h, List.mem_cons] at hp
    rcases hp with rfl | hp
    · exact h.2
    · exact ih p hp
  | case4 u rest cur curSize h ih =>
    intro p hp
    simp only [flushChunks, if_neg h] at hp
    exact ih p hp

/-- The loop returns no chunks exactly when both the units and the pending
accumulation are empty. -/
theorem flushChunks_eq_nil_iff (target : Int) (units cur : List (String × Nat)) (curSize : Nat) :
    flushChunks target units cur curSize = [] ↔ units = [] ∧ cur = [] := by
  induction units, cur, curSize using flushChunks.induct target with
  | case1 cur curSize h => simp [flushChunks, h, List.isEmpty_iff.mp h]
  | case2 cur curSize h =>
    have hcur : cur ≠ [] := fun hc => h (by simp [hc])
    simp [flushChunks, if_neg h, hcur]
  | case3 u rest cur curSize h ih => simp [flushChunks, if_pos h]
  | case4 u rest cur curSize h ih => simp [flushChunks, if_neg h, ih]

/-- The reported size of every flushed group is the sum of the sizes of the
units in it, provided the running total matches the pending group. -/
theorem flushChunks_mem_size_eq (target : Int) (units cur : List (String × Nat)) (curSize : Nat)
    (hcur : curSize = (cur.map Prod.snd).sum) :
    ∀ p ∈ flushChunks target units cur curSize, p.2 = (p.1.map Prod.snd).sum := by
  induction units, cur, curSize using flushChunks.induct target with
  | case1 cur curSize h => simp [flushChunks, h]
  | case2 cur curSize h =>
    intro p hp
    simp only [flushChunks, if_neg h, List.mem_singleton] at hp
    subst hp
    exact hcur
  | case3 u rest cur curSize h ih =>
    intro p hp
    simp only [flushChunks, if_pos h, List.mem_cons] at hp
    rcases hp with rfl | hp
    · exact hcur
    · exact ih (by simp) p hp
  | case4 u rest cur curSize h ih =>
    intro p hp
    simp only [flushChunks, if_neg h] at hp
    exact ih (by simp [hcur]) p hp

/-- Every flushed group is within the target or consists of a single unit,
given that the pending accumulation already satisfies this invariant. -/
theorem flushChunks_mem_size_le (target : Int) (units cur : List (String × Nat)) (curSize : Nat)
    (hcur : cur = [] ∨ (curSize : Int) ≤ target ∨ cur.length = 1) :
    ∀ p ∈ flushChunks target units cur curSize, (p.2 : Int) ≤ target ∨ p.1.length = 1 := by
  induction units, cur, curSize using flushChunks.induct target with
  | case1 cur curSize h => simp [flushChunks, h]
  | case2 cur curSize h =>
    intro p hp
    simp only [flushChunks, if_neg h, List.mem_singleton] at hp
    subst hp
    rcases hcur with hc | hc | hc
    · exact absurd (by simp [hc]) h
    · exact Or.inl hc
    · exact Or.inr hc
  | case3 u rest cur curSize h ih =>
    intro p hp
    simp only [flushChunks, if_pos h, List.mem_cons] at hp
    rcases hp with rfl | hp
    · rcases hcur with hc | hc | hc
      · exact absurd hc h.2
      · exact Or.inl hc
      · exact Or.inr hc
    · exact ih (Or.inr (Or.inr (by simp))) p hp
  | case4 u rest cur curSize h ih =>
    intro p hp
    simp only [flushChunks, if_neg h] at hp
    refine ih ?_ p hp
    rcases Decidable.not_and_iff_or_not.mp h with hgt | hcur2
    · refine Or.inr (Or.inl ?_)
      push_cast
      omega
    · right
      right
      have : cur = [] := by
        by_contra hc
        exact hcur2 hc
      simp [this]

/-- The loop emits at most one chunk per unit, plus one for a non-empty
pending accumulation. -/
theorem flushChunks_length_le (target : Int) (units cur : List (String × Nat)) (curSize : Nat) :
    (flushChunks target units cur curSize).length ≤
      units.length + (if cur.isEmpty then 0 else 1) := by
  induction units, cur, curSize using flushChunks.induct target with
  | case1 cur curSize h => simp [flushChunks, h]
  | case2 cur curSize h => simp [flushChunks, if_neg h, h]
  | case3 u rest cur curSize h ih =>
    have hcur : cur.isEmpty = false := by
      rcases h with ⟨-, hc⟩
      simpa [List.isEmpty_iff] using hc
    simp only [flushChunks, if_pos h, List.length_cons, hcur]
    simp only [List.isEmpty_cons] at ih ⊢
    omega
  | case4 u rest cur curSize h ih =>
    have happ : (cur ++ [u]).isEmpty = false := by simp
    rw [happ] at ih
    norm_num at ih
    simp only [flushChunks, if_neg h, List.length_cons]
    split <;> omega

/-! ### Lemmas about word counting, joining, and splitting -/

/-- Consuming a non-empty run of whitespace resets the in-word flag. -/
theorem wcAux_space_run (sep : List Char) (hsep : sep ≠ [])
    (hsp : ∀ c ∈ sep, isPySpace c = true) (ys : List Char) (b : Bool) :
    wcAux (sep ++ ys) b = wcAux ys false := by
  induction sep generalizing b with
  | nil => exact absurd rfl hsep
  | cons c rest ih =>
    have hc : isPySpace c = true := hsp c (by simp)
    cases rest with
    | nil => simp [wcAux, hc]
    | cons d rest2 =>
      simp only [List.cons_append, wcAux, hc, if_pos]
      exact ih (by simp) (fun e he => hsp e (by simp [he])) false

/-- Word counts add across an all-whitespace separator. -/
theorem wcAux_append_sep (sep : List Char) (hsep : sep ≠ [])
    (hsp : ∀ c ∈ sep, isPySpace c = true) (xs ys : List Char) (b : Bool) :
    wcAux (xs ++ sep ++ ys) b = wcAux xs b + wcAux ys false := by
  induction xs generalizing b with
  | nil => simp [wcAux, wcAux_space_run sep hsep hsp ys b]
  | cons c rest ih =>
    by_cases hc : isPySpace c = true
    · simp [wcAux, hc]
      rw [← List.append_assoc]
      exact ih false
    · have hcf : isPySpace c = false := by
        cases hx : isPySpace c
        · rfl
        · exact absurd hx hc
      simp only [List.cons_append, wcAux, hcf, Bool.false_eq_true, if_false, List.append_eq]
      rw [ih true]
      omega

/-- The word count of a whitespace-join is the sum of the word counts. -/
theorem joinSep_wcAux (sep : List Char) (hsep : sep ≠ [])
    (hsp : ∀ c ∈ sep, isPySpace c = true) (ls : List (List Char)) :
    wcAux (joinSep sep ls) false = (ls.map (fun l => wcAux l false)).sum := by
  induction ls with
  | nil => simp [joinSep, wcAux]
  | cons x xs ih =>
    cases xs with
    | nil => simp [joinSep]
    | cons y ys =>
      simp only [joinSep, List.map_cons, List.sum_cons]
      rw [wcAux_append_sep sep hsep hsp x (joinSep sep (y :: ys)) false, ih]
      simp [List.sum_cons]

/-- Joining a concatenation of two non-empty lists of pieces splits across
the separator. -/
theorem joinSep_append (sep : List Char) (as bs : List (List Char))
    (ha : as ≠ []) (hb : bs ≠ []) :
    joinSep sep (as ++ bs) = joinSep sep as ++ sep ++ joinSep sep bs := by
  induction as with
  | nil => exact absurd rfl ha
  | cons x as ih =>
    cases as with
    | nil =>
      cases bs with
      | nil => exact absurd rfl hb
      | cons y ys => simp [joinSep]
    | cons z zs =>
      have ih2 := ih (by simp)
      rw [List.cons_append] at ih2
      simp only [List.cons_append, joinSep, List.append_eq]
      rw [ih2]
      simp [List.append_assoc]

/-- Joining the per-group joins equals joining the flattened groups, as long
as every group is non-empty. -/
theorem joinSep_flatten_eq (sep : List Char) (gs : List (List (List Char)))
    (h : ∀ g ∈ gs, g ≠ []) :
    joinSep sep (gs.map (joinSep sep)) = joinSep sep gs.flatten := by
  induction gs with
  | nil => rfl
  | cons g rest ih =>
    cases rest with
    | nil => simp [joinSep]
    | cons g2 rest2 =>
      have hg : g ≠ [] := h g (by simp)
      have hg2 : g2 ≠ [] := h g2 (by simp)
      have hflat : (g2 :: rest2).flatten ≠ [] := by
        simp only [List.flatten_cons]
        intro hc
        exact hg2 (List.append_eq_nil.mp hc).1
      have ih2 := ih (fun g' hg' => h g' (by simp [hg']))
      have hrw := joinSep_append sep g (g2 :: rest2).flatten hg hflat
      calc joinSep sep ((g :: g2 :: rest2).map (joinSep sep))
          = joinSep sep g ++ sep ++ joinSep sep ((g2 :: rest2).map (joinSep sep)) := by
            simp only [List.map_cons, joinSep]
        _ = joinSep sep g ++ sep ++ joinSep sep ((g2 :: rest2).flatten) := by rw [ih2]
        _ = joinSep sep (g ++ (g2 :: rest2).flatten) := by rw [hrw]
        _ = joinSep sep ((g :: g2 :: rest2).flatten) := by simp only [List.flatten_cons]

/-- The paragraph split always produces at least one piece. -/
theorem splitNN_ne_nil (cs acc : List Char) : splitNN cs acc ≠ [] := by
  induction cs, acc using splitNN.induct with
  | case1 acc => simp [splitNN.eq_1]
  | case2 rest acc ih => simp [splitNN.eq_2]
  | case3 c rest acc hne ih =>
    rw [splitNN.eq_3 acc c rest hne]
    exact ih

/-- Rejoining the paragraph split with the separator restores the input:
Python `'\n\n'.join(text.split('\n\n')) == text`. -/
theorem joinSep_splitNN (cs acc : List Char) :
    joinSep ['\n', '\n'] (splitNN cs acc) = acc.reverse ++ cs := by
  induction cs, acc using splitNN.induct with
  | case1 acc => simp [splitNN.eq_1, joinSep]
  | case2 rest acc ih =>
    rw [splitNN.eq_2]
    obtain ⟨y, ys, hy⟩ : ∃ y ys, splitNN rest [] = y :: ys := by
      cases hsp : splitNN rest [] with
      | nil => exact absurd hsp (splitNN_ne_nil rest [])
      | cons y ys => exact ⟨y, ys, rfl⟩
    rw [hy]
    show acc.reverse ++ ['\n', '\n'] ++ joinSep ['\n', '\n'] (y :: ys) = acc.reverse ++ '\n' :: '\n' :: rest
    rw [← hy, ih]
    simp
  | case3 c rest acc hne ih =>
    rw [splitNN.eq_3 acc c rest hne, ih]
    simp

/-- The line split produces no lines exactly on empty input (with an empty
accumulator). -/
theorem splitlinesList_eq_nil_iff (cs acc : List Char) :
    splitlinesList cs acc = [] ↔ cs = [] ∧ acc = [] := by
  induction cs, acc using splitlinesList.induct with
  | case1 acc h => simp [splitlinesList.eq_1, h, List.isEmpty_iff.mp h]
  | case2 acc h =>
    have hacc : acc ≠ [] := fun hc => h (by simp [hc])
    simp [splitlinesList.eq_1, h, hacc]
  | case3 rest acc ih => simp [splitlinesList.eq_2]
  | case4 c rest acc hne hbr ih =>
    rw [splitlinesList.eq_3 acc c rest hne]
    simp [hbr]
  | case5 c rest acc hne hbr ih =>
    rw [splitlinesList.eq_3 acc c rest hne]
    simp only [Bool.not_eq_true] at hbr
    simp [hbr, ih]

/-- Splitting the empty string yields no lines; splitting a non-empty string
yields at least one line. -/
theorem splitlines_eq_nil_iff (text : String) : splitlines text = [] ↔ text = "" := by
  constructor
  · intro h
    have h2 : splitlinesList text.toList [] = [] := by
      simpa [splitlines, List.map_eq_nil_iff] using h
    have h3 := (splitlinesList_eq_nil_iff text.toList []).mp h2
    cases text with
    | mk data =>
      cases h3.1
      rfl
  · intro h
    subst h
    rfl

/-- Joining the joined chunk texts with the same separator equals joining all
units directly: grouping never changes the joined content. -/
theorem flushChunks_join_eq (sep : String) (target : Int) (units : List (String × Nat)) :
    joinStr sep ((flushChunks target units [] 0).map
      (fun g => joinStr sep (g.1.map Prod.fst))) =
    joinStr sep (units.map Prod.fst) := by
  set groups := flushChunks target units [] 0 with hgroups
  set gs : List (List (List Char)) :=
    groups.map (fun g => (g.1.map Prod.fst).map String.toList) with hgs
  have hmaps : ((groups.map (fun g => joinStr sep (g.1.map Prod.fst))).map String.toList)
      = gs.map (joinSep sep.toList) := by
    simp [hgs, List.map_map, joinStr, Function.comp]
  have hne : ∀ g' ∈ gs, g' ≠ [] := by
    intro g' hg'
    simp only [hgs, List.mem_map] at hg'
    obtain ⟨g, hg, rfl⟩ := hg'
    have hgne := flushChunks_mem_ne_nil target units [] 0 g hg
    simp [List.map_eq_nil_iff, hgne]
  have hflat : gs.flatten = (units.map Prod.fst).map String.toList := by
    have h1 : gs = (groups.map Prod.fst).map (List.map (fun u => u.1.toList)) := by
      simp [hgs, List.map_map, Function.comp]
    rw [h1, ← List.map_flatten]
    rw [hgroups, flushChunks_flatten]
    simp [List.map_map, Function.comp]
  rw [joinStr, hmaps, joinSep_flatten_eq sep.toList gs hne, hflat, joinStr]

/-- Python `'\n\n'.join(text.split('\n\n')) == text` at the `String` level. -/
theorem joinStr_splitParagraphs (text : String) :
    joinStr "\n\n" (splitParagraphs text) = text := by
  have hmaps : ((splitParagraphs text).map String.toList) = splitNN text.toList [] := by
    simp only [splitParagraphs, List.map_map]
    have hid : (String.toList ∘ String.mk) = (id : List Char → List Char) := by
      funext l
      rfl
    rw [hid, List.map_id]
  rw [joinStr, hmaps]
  have hNN : ("\n\n" : String).toList = ['\n', '\n'] := rfl
  rw [hNN, joinSep_splitNN text.toList []]
  cases text with
  | mk data => rfl

/-- Every unit inside a flushed group comes from the pending accumulation or
from the unit stream. -/
theorem flushChunks_mem_mem (target : Int) (units cur : List (String × Nat)) (curSize : Nat) :
    ∀ p ∈ flushChunks target units cur curSize, ∀ u ∈ p.1, u ∈ cur ∨ u ∈ units := by
  induction units, cur, curSize using flushChunks.induct target with
  | case1 cur curSize h => simp [flushChunks, h]
  | case2 cur curSize h =>
    intro p hp u hu
    simp only [flushChunks, if_neg h, List.mem_singleton] at hp
    subst hp
    exact Or.inl hu
  | case3 u0 rest cur curSize h ih =>
    intro p hp u hu
    simp only [flushChunks, if_pos h, List.mem_cons] at hp
    rcases hp with rfl | hp
    · exact Or.inl hu
    · rcases ih p hp u hu with hc | hc
      · simp only [List.mem_singleton] at hc
        exact Or.inr (by simp [hc])
      · exact Or.inr (by simp [hc])
  | case4 u0 rest cur curSize h ih =>
    intro p hp u hu
    simp only [flushChunks, if_neg h] at hp
    rcases ih p hp u hu with hc | hc
    · rcases List.mem_append.mp hc with hc2 | hc2
      · exact Or.inl hc2
      · simp only [List.mem_singleton] at hc2
        exact Or.inr (by simp [hc2])
    · exact Or.inr (by simp [hc])

/-- The word count of a whitespace-join of strings is the sum of the word
counts of the strings. -/
theorem joinStr_wordCount (sep : String) (hsep : sep.toList ≠ [])
    (hsp : ∀ c ∈ sep.toList, isPySpace c = true) (ls : List String) :
    wordCount (joinStr sep ls) = (ls.map wordCount).sum := by
  show wcAux (String.mk (joinSep sep.toList (ls.map String.toList))).toList false = _
  rw [show (String.mk (joinSep sep.toList (ls.map String.toList))).toList
      = joinSep sep.toList (ls.map String.toList) from rfl]
  rw [joinSep_wcAux sep.toList hsep hsp]
  simp only [List.map_map]
  rfl

/-- In a chunk list built by the shared loop from units sized by their word
counts, every chunk's reported size is the word count of its joined text. -/
theorem flushChunks_chunk_wordCount (sep : String) (hsep : sep.toList ≠ [])
    (hsp : ∀ c ∈ sep.toList, isPySpace c = true) (target : Int) (lines : List String) :
    ∀ p ∈ (flushChunks target (lines.map (fun l => (l, wordCount l))) [] 0).map
        (fun g => (joinStr sep (g.1.map Prod.fst), g.2)),
      p.2 = wordCount p.1 := by
  intro p hp
  simp only [List.mem_map] at hp
  obtain ⟨g, hg, rfl⟩ := hp
  have heq := flushChunks_mem_size_eq target (lines.map (fun l => (l, wordCount l))) [] 0
    (by simp) g hg
  have hmem := flushChunks_mem_mem target (lines.map (fun l => (l, wordCount l))) [] 0 g hg
  show g.2 = wordCount (joinStr sep (g.1.map Prod.fst))
  rw [joinStr_wordCount sep hsep hsp, heq, List.map_map]
  refine congrArg List.sum (List.map_congr_left ?_)
  intro u hu
  rcases hmem u hu with hc | hc
  · exact absurd hc (List.not_mem_nil u)
  · simp only [List.mem_map] at hc
    obtain ⟨l, hl, rfl⟩ := hc
    rfl

/-! ### Claim theorems -/

/-- C1 counterexample: with `chunk_size = -1`, token-based chunking of a text
that encodes to the single token `'a'` returns an initial chunk of size 0;
that size exceeds the target `-1`, yet the chunk consists of zero tokens,
not of a single indivisible unit, refuting the claim as stated. -/
theorem C1_counterexample :
    TokenBasedChunking.chunk charEnc "a" (-1) = [("", 0), ("a", 1)] ∧
    ¬ (((0 : Nat) : Int) ≤ -1) ∧ (0 : Nat) ≠ 1 := by
  refine ⟨by decide, by decide, by decide⟩

/-- C1 (amended): every chunk's size is at most the target, except a chunk
consisting of a single indivisible unit (one token, or one line/paragraph
whose group is a singleton carrying that unit's own size), and — in token
mode with a negative target only — the initial empty chunk of zero tokens. -/
theorem C1_chunk_size_bound {τ : Type} (enc : Encoding τ) (text : String) (target : Int) :
    (∀ p ∈ TokenBasedChunking.chunk enc text target,
      (p.2 : Int) ≤ target ∨ p.2 = 1 ∨ (p.2 = 0 ∧ target < 0)) ∧
    (∀ p ∈ LineBasedChunking.chunkGroups text target,
      (p.2 : Int) ≤ target ∨ ∃ u, p.1 = [u] ∧ p.2 = u.2) ∧
    (∀ p ∈ ParagraphBasedChunking.chunkGroups text target,
      (p.2 : Int) ≤ target ∨ ∃ u, p.1 = [u] ∧ p.2 = u.2) := by
  refine ⟨?_, ?_, ?_⟩
  · intro p hp
    simp only [TokenBasedChunking.chunk, List.mem_map] at hp
    obtain ⟨c, hc, rfl⟩ := hp
    have hlen := tokenGroups_mem_length target (enc.encode text) [] (Or.inl (by simp)) c hc
    rcases hlen with hl | hl
    · rcases Nat.le_one_iff_eq_zero_or_eq_one.mp hl with h0 | h1
      · by_cases ht : target < 0
        · exact Or.inr (Or.inr ⟨h0, ht⟩)
        · refine Or.inl ?_
          show ((c.length : Nat) : Int) ≤ target
          rw [h0]
          omega
      · exact Or.inr (Or.inl h1)
    · exact Or.inl hl
  · intro p hp
    have hle := flushChunks_mem_size_le target (lineUnits text) [] 0 (Or.inl rfl) p hp
    have heq := flushChunks_mem_size_eq target (lineUnits text) [] 0 (by simp) p hp
    rcases hle with hl | hl
    · exact Or.inl hl
    · obtain ⟨u, hu⟩ := List.length_eq_one.mp hl
      refine Or.inr ⟨u, hu, ?_⟩
      rw [heq, hu]
      simp
  · intro p hp
    have hle := flushChunks_mem_size_le target (paragraphUnits text) [] 0 (Or.inl rfl) p hp
    have heq := flushChunks_mem_size_eq target (paragraphUnits text) [] 0 (by simp) p hp
    rcases hle with hl | hl
    · exact Or.inl hl
    · obtain ⟨u, hu⟩ := List.length_eq_one.mp hl
      refine Or.inr ⟨u, hu, ?_⟩
      rw [heq, hu]
      simp

/-- C1 witness: in line mode with target 3, the group holding the single
oversized line `"e f g h"` (word count 4) is emitted as a singleton. -/
theorem C1_chunk_size_bound_witness :
    ([("e f g h", (4 : Nat))], (4 : Nat)) ∈ LineBasedChunking.chunkGroups "a b c\nd\ne f g h" 3 ∧
    ((((4 : Nat) : Int) ≤ 3) ∨
      ∃ u, [("e f g h", (4 : Nat))] = [u] ∧ (4 : Nat) = u.2) := by
  refine ⟨by decide, ?_⟩
  exact (C1_chunk_size_bound charEnc "a b c\nd\ne f g h" 3).2.1
    ([("e f g h", 4)], 4) (by decide)

/-- C2 counterexample: line-based chunking of `"a b c\nd\ne f g h"` with
target 3 does not return the two chunks the claim states. -/
theorem C2_counterexample :
    LineBasedChunking.chunk "a b c\nd\ne f g h" 3 ≠ [("a b c", 3), ("d e f g h", 5)] := by
  decide

/-- C2 (amended): line-based chunking of `"a b c\nd\ne f g h"` with target 3
returns exactly the three chunks `[("a b c", 3), ("d", 1), ("e f g h", 4)]`:
the flush fires before adding `"e f g h"` (1 + 4 > 3), so `"d"` is emitted
alone. -/
theorem C2_line_literal :
    LineBasedChunking.chunk "a b c\nd\ne f g h" 3 =
      [("a b c", 3), ("d", 1), ("e f g h", 4)] := by
  decide

/-- C3 counterexample: `"abcde"` encodes to exactly 5 tokens under the
character tokenizer, yet token-based chunking with target 0 does not return
5 chunks (it returns 6: an initial empty chunk precedes the singletons). -/
theorem C3_counterexample :
    (charEnc.encode "abcde").length = 5 ∧
    (TokenBasedChunking.chunk charEnc "abcde" 0).length ≠ 5 ∧
    TokenBasedChunking.chunk charEnc "abcde" 0 =
      [("", 0), ("a", 1), ("b", 1), ("c", 1), ("d", 1), ("e", 1)] := by
  refine ⟨by decide, by decide, by decide⟩

/-- C3 (amended): with a non-positive target and a non-empty token stream,
the result is the flushed initial empty chunk `(decode [], 0)` followed by
one single-token chunk of size 1 per input token (6 chunks for a 5-token
input). -/
theorem C3_token_zero_target {τ : Type} (enc : Encoding τ) (text : String) (target : Int)
    (hle : target ≤ 0) (hne : enc.encode text ≠ []) :
    TokenBasedChunking.chunk enc text target =
      (enc.decode [], 0) :: (enc.encode text).map (fun t => (enc.decode [t], 1)) := by
  unfold TokenBasedChunking.chunk
  rw [tokenGroups_nonpos target hle (enc.encode text) hne]
  simp [List.map_map, Function.comp]

/-- C3 witness: the amended statement evaluated on the 5-token input
`"abcde"` with target 0. -/
theorem C3_token_zero_target_witness :
    TokenBasedChunking.chunk charEnc "abcde" 0 =
      (charEnc.decode [], 0) :: (charEnc.encode "abcde").map (fun t => (charEnc.decode [t], 1)) :=
  C3_token_zero_target charEnc "abcde" 0 (by decide) (by decide)

/-- C4 counterexample: paragraph-based chunking of the empty string returns
the single chunk `("", 0)`, not the empty list, because `''.split('\n\n')`
is `['']` and the final flush emits the accumulated empty paragraph. -/
theorem C4_counterexample :
    ParagraphBasedChunking.chunk "" 5 ≠ [] ∧
    ParagraphBasedChunking.chunk "" 5 = [("", 0)] := by
  refine ⟨by decide, by decide⟩

/-- C4 (amended): for token mode (assuming the tokenizer encodes exactly the
empty text to the empty token list) and for line mode the chunk list is
empty iff the input is empty; paragraph mode instead never returns an empty
list, and on empty input returns the single chunk `("", 0)`. -/
theorem C4_empty_iff {τ : Type} (enc : Encoding τ) (text : String) (target : Int) :
    (LineBasedChunking.chunk text target = [] ↔ text = "") ∧
    ((enc.encode text = [] ↔ text = "") →
      (TokenBasedChunking.chunk enc text target = [] ↔ text = "")) ∧
    ParagraphBasedChunking.chunk text target ≠ [] ∧
    ParagraphBasedChunking.chunk "" target = [("", 0)] := by
  refine ⟨?_, ?_, ?_, ?_⟩
  · simp [LineBasedChunking.chunk, LineBasedChunking.chunkGroups, List.map_eq_nil_iff,
      flushChunks_eq_nil_iff, lineUnits, splitlines_eq_nil_iff]
  · intro henc
    simp [TokenBasedChunking.chunk, List.map_eq_nil_iff, tokenGroups_eq_nil_iff, henc]
  · intro hc
    simp only [ParagraphBasedChunking.chunk, ParagraphBasedChunking.chunkGroups,
      List.map_eq_nil_iff, flushChunks_eq_nil_iff, paragraphUnits, splitParagraphs] at hc
    exact splitNN_ne_nil text.toList [] hc.1
  · have hu : paragraphUnits "" = [("", 0)] := by decide
    simp only [ParagraphBasedChunking.chunk, ParagraphBasedChunking.chunkGroups, hu]
    simp [flushChunks, joinStr, joinSep]

/-- C4 witness: the token-mode equivalence applied to the character
tokenizer on a concrete non-empty input. -/
theorem C4_empty_iff_witness :
    TokenBasedChunking.chunk charEnc "ab" 5 = [] ↔ ("ab" : String) = "" :=
  (C4_empty_iff charEnc "ab" 5).2.1 (by decide)

/-- C5: the factory fails exactly when the strategy name is unknown or when
`token` is requested without an encoder; each of the three valid names with
its required dependency yields the matching strategy. -/
theorem C5_factory {τ : Type} (name : String) (encoder : Option (Encoding τ)) (e : Encoding τ) :
    ((∃ err, get_chunking_strategy name encoder = Except.error err) ↔
      ((name ≠ "token" ∧ name ≠ "line" ∧ name ≠ "paragraph") ∨
        (name = "token" ∧ encoder = none))) ∧
    get_chunking_strategy "token" (some e) = Except.ok (Strategy.tokenBased e) ∧
    get_chunking_strategy "line" encoder = Except.ok Strategy.lineBased ∧
    get_chunking_strategy "paragraph" encoder = Except.ok Strategy.paragraphBased ∧
    get_chunking_strategy "token" (none : Option (Encoding τ)) =
      Except.error ConfigurationError.missingEncoder ∧
    ((name ≠ "token" ∧ name ≠ "line" ∧ name ≠ "paragraph") →
      get_chunking_strategy name encoder =
        Except.error (ConfigurationError.unknownStrategy name)) := by
  refine ⟨?_, by rfl, ?_, ?_, by rfl, ?_⟩
  · by_cases h1 : name = "token"
    · subst h1
      cases encoder with
      | none => simp [get_chunking_strategy]
      | some e2 => simp [get_chunking_strategy]
    · by_cases h2 : name = "line"
      · subst h2
        simp [get_chunking_strategy]
      · by_cases h3 : name = "paragraph"
        · subst h3
          simp [get_chunking_strategy]
        · simp [get_chunking_strategy, h1, h2, h3]
  · simp [get_chunking_strategy]
  · simp [get_chunking_strategy]
  · intro h
    simp [get_chunking_strategy, h.1, h.2.1, h.2.2]

/-- C5 witness: an unknown name is rejected with `unknownStrategy`. -/
theorem C5_factory_witness :
    get_chunking_strategy "unknown" (some charEnc) =
      Except.error (ConfigurationError.unknownStrategy "unknown") :=
  (C5_factory "unknown" (some charEnc) charEnc).2.2.2.2.2 (by decide)

/-- C6: when the tokenizer re-encodes each decoded chunk to its original
token run, the in-order concatenation of the chunks' token sequences is
exactly `encode(text)`: no token dropped, duplicated, or reordered, and
chunks appear in document order. -/
theorem C6_token_concat {τ : Type} (enc : Encoding τ) (text : String) (target : Int)
    (hinv : ∀ l : List τ, enc.encode (enc.decode l) = l) :
    ((TokenBasedChunking.chunk enc text target).map (fun p => enc.encode p.1)).flatten =
      enc.encode text := by
  unfold TokenBasedChunking.chunk
  rw [List.map_map]
  have hcomp : ((fun p : String × Nat => enc.encode p.1) ∘
      fun c : List τ => (enc.decode c, c.length)) = fun c => c := by
    funext c
    exact hinv c
  rw [hcomp]
  simp [tokenGroups_flatten]

/-- C6 witness: the concatenation property evaluated for the character
tokenizer, whose `encode` and `decode` are mutually inverse. -/
theorem C6_token_concat_witness :
    ((TokenBasedChunking.chunk charEnc "abc" 2).map (fun p => charEnc.encode p.1)).flatten =
      charEnc.encode "abc" :=
  C6_token_concat charEnc "abc" 2 (fun _ => rfl)

/-- C7: paragraph-based chunking of
`"alpha beta\n\ngamma\n\ndelta epsilon zeta"` with target 2 returns exactly
`[("alpha beta", 2), ("gamma", 1), ("delta epsilon zeta", 3)]`. -/
theorem C7_paragraph_literal :
    ParagraphBasedChunking.chunk "alpha beta\n\ngamma\n\ndelta epsilon zeta" 2 =
      [("alpha beta", 2), ("gamma", 1), ("delta epsilon zeta", 3)] := by
  decide

/-- C8: joining the chunk texts with the strategy's joiner reconstructs the
input modulo the joiner substitution — in paragraph mode the `"\n\n"`-join
of the chunk texts is the input text exactly; in line mode the single-space
join of the chunk texts equals the input's lines joined by single spaces. -/
theorem C8_join_reconstruction (text : String) (target : Int) :
    joinStr "\n\n" ((ParagraphBasedChunking.chunk text target).map Prod.fst) = text ∧
    joinStr " " ((LineBasedChunking.chunk text target).map Prod.fst) =
      joinStr " " (splitlines text) := by
  constructor
  · have h := flushChunks_join_eq "\n\n" target (paragraphUnits text)
    have hu : (paragraphUnits text).map Prod.fst = splitParagraphs text := by
      simp only [paragraphUnits, List.map_map]
      have hid : (Prod.fst ∘ fun p : String => (p, wordCount p)) = (id : String → String) := by
        funext p
        rfl
      rw [hid, List.map_id]
    unfold ParagraphBasedChunking.chunk ParagraphBasedChunking.chunkGroups
    rw [List.map_map]
    have hcomp : (Prod.fst ∘ fun g : List (String × Nat) × Nat =>
        (joinStr "\n\n" (g.1.map Prod.fst), g.2)) =
        fun g : List (String × Nat) × Nat => joinStr "\n\n" (g.1.map Prod.fst) := rfl
    rw [hcomp, h, hu, joinStr_splitParagraphs]
  · have h := flushChunks_join_eq " " target (lineUnits text)
    have hu : (lineUnits text).map Prod.fst = splitlines text := by
      simp only [lineUnits, List.map_map]
      have hid : (Prod.fst ∘ fun l : String => (l, wordCount l)) = (id : String → String) := by
        funext l
        rfl
      rw [hid, List.map_id]
    unfold LineBasedChunking.chunk LineBasedChunking.chunkGroups
    rw [List.map_map]
    have hcomp : (Prod.fst ∘ fun g : List (String × Nat) × Nat =>
        (joinStr " " (g.1.map Prod.fst), g.2)) =
        fun g : List (String × Nat) × Nat => joinStr " " (g.1.map Prod.fst) := rfl
    rw [hcomp, h, hu]

/-- C9: in line and paragraph mode every chunk's reported size equals the
whitespace-separated word count of that chunk's own joined text. -/
theorem C9_size_eq_wordCount (text : String) (target : Int) :
    (∀ p ∈ LineBasedChunking.chunk text target, p.2 = wordCount p.1) ∧
    (∀ p ∈ ParagraphBasedChunking.chunk text target, p.2 = wordCount p.1) := by
  constructor
  · exact flushChunks_chunk_wordCount " " (by decide) (by decide) target (splitlines text)
  · exact flushChunks_chunk_wordCount "\n\n" (by decide) (by decide) target
      (splitParagraphs text)

/-- C9 witness: the first chunk of line-chunking `"a b c\nd"` at target 3 is
`("a b c", 3)` and 3 is indeed the word count of `"a b c"`. -/
theorem C9_size_eq_wordCount_witness :
    (("a b c", (3 : Nat)) ∈ LineBasedChunking.chunk "a b c\nd" 3) ∧
    (3 : Nat) = wordCount "a b c" := by
  refine ⟨by decide, ?_⟩
  exact (C9_size_eq_wordCount "a b c\nd" 3).1 ("a b c", 3) (by decide)

/-- C10: line- and paragraph-based chunking are total for every input string
and every integer target, including zero and negative values — the embedded
functions are total by construction, and the chunk list never exceeds one
chunk per unit. -/
theorem C10_total_bounded (text : String) (target : Int) :
    (LineBasedChunking.chunk text target).length ≤ (splitlines text).length ∧
    (ParagraphBasedChunking.chunk text target).length ≤ (splitParagraphs text).length := by
  constructor
  · have h := flushChunks_length_le target (lineUnits text) [] 0
    simp only [List.isEmpty_nil, if_true] at h
    unfold LineBasedChunking.chunk LineBasedChunking.chunkGroups
    rw [List.length_map]
    calc (flushChunks target (lineUnits text) [] 0).length
        ≤ (lineUnits text).length + 0 := h
      _ = (splitlines text).length := by simp [lineUnits]
  · have h := flushChunks_length_le target (paragraphUnits text) [] 0
    simp only [List.isEmpty_nil, if_true] at h
    unfold ParagraphBasedChunking.chunk ParagraphBasedChunking.chunkGroups
    rw [List.length_map]
    calc (flushChunks target (paragraphUnits text) [] 0).length
        ≤ (paragraphUnits text).length + 0 := h
      _ = (splitParagraphs text).length := by simp [paragraphUnits]
